import Mathlib

/-!
Verification of the metrics-registry specification for the
`monitoring-infrastructure-prometheus-grafana` repository.

The repository's only source file, `examples/python-app/app.py`, is a thin
Flask application instrumented with `prometheus_client` Counters, Histograms
and a Gauge.  The metrics core itself (series accumulators, label fan-out,
registry, text exporter) is not part of the repository's sources, so those
components are modelled from the specification (`spec.md`); definitions that
do so carry a doc comment starting with `Modelled from the spec:`.  Metric
values (floats in the source) are modelled as rationals; machine floating
point is not modelled.

The request-lifecycle hooks (`before_request` / `after_request`) are embedded
directly from `app.py`.
-/

/-- Opening brace character, written via its code point. -/
def lbrace : Char := '\x7b'

/-- Closing brace character, written via its code point. -/
def rbrace : Char := '\x7d'

/-! ## Counter series (modelled from the spec)

`Modelled from the spec:` the Counter variant of `LabeledSeries` and its
`increment(delta ≥ 0)` operation (spec §3, §4.2): a negative delta is
rejected with `InvalidMetricValueError` before mutating the accumulator.
The `prometheus_client` implementation of `Counter.inc` is not part of
`src/`; only its call sites in `app.py` are. -/

/-- Error taxonomy of the registry core.  `Modelled from the spec:` §7. -/
inductive RegistryError
  | duplicateMetric
  | labelCardinality
  | invalidMetricValue
deriving DecidableEq, Repr

/-- `Modelled from the spec:` Counter `increment(delta)`: fails with
`InvalidMetricValueError` on a negative delta, otherwise adds it. -/
def counterIncrement (d : ℚ) (v : ℚ) : Except RegistryError ℚ :=
  if d < 0 then .error .invalidMetricValue else .ok (v + d)

/-- One `increment` call as executed against a live series: a rejected call
leaves the stored value unchanged. -/
def counterApply (d : ℚ) (v : ℚ) : ℚ :=
  match counterIncrement d v with
  | .ok v' => v'
  | .error _ => v

/-- A finite sequence of `increment` calls against one Counter series. -/
def applyIncrements (ds : List ℚ) (v : ℚ) : ℚ :=
  ds.foldl (fun acc d => counterApply d acc) v

/-! ## Histogram series (modelled from the spec)

`Modelled from the spec:` the Histogram variant of `LabeledSeries` (§3) and
`observe(value)` (§4.2), maintaining cumulative bucket counts at write time.
The final `+infinity` sentinel bucket is stored in the `infCount` field. -/

/-- `Modelled from the spec:` Histogram series state.  `bucketCounts` is
parallel to `bucketUpperBounds`; `infCount` is the count of the trailing
`+infinity` sentinel bucket. -/
structure HistogramSeries where
  bucketUpperBounds : List ℚ
  bucketCounts : List ℕ
  infCount : ℕ
  sum : ℚ
  totalCount : ℕ
deriving DecidableEq, Repr

/-- `Modelled from the spec:` a fresh histogram series: all bucket counts,
the sum and the total count start at zero. -/
def histInit (bounds : List ℚ) : HistogramSeries :=
  ⟨bounds, bounds.map (fun _ => 0), 0, 0, 0⟩

/-- `Modelled from the spec:` `observe(value)`: increment every bucket whose
bound is ≥ the value (cumulative at write time), always increment the
`+infinity` bucket, add the value to `sum`, increment `totalCount`. -/
def histObserve (v : ℚ) (h : HistogramSeries) : HistogramSeries :=
  { h with
    bucketCounts :=
      (h.bucketUpperBounds.zip h.bucketCounts).map
        (fun bc => if v ≤ bc.1 then bc.2 + 1 else bc.2)
    infCount := h.infCount + 1
    sum := h.sum + v
    totalCount := h.totalCount + 1 }

/-- A finite sequence of `observe` calls against one Histogram series. -/
def histObserveAll (vs : List ℚ) (h : HistogramSeries) : HistogramSeries :=
  vs.foldl (fun acc v => histObserve v acc) h

/-! ## Association-list stores

The registry keys families by metric name and each family keys series by
label values; both are modelled as insertion-ordered association lists
(Python dicts preserve insertion order). -/

/-- Look up the value stored under a key, if any. -/
def getEntry {κ α : Type} [DecidableEq κ] (k : κ) : List (κ × α) → Option α
  | [] => none
  | (k', v) :: rest => if k' = k then some v else getEntry k rest

/-- Update the entry under `k` in place, creating it from `init` on first
use (insertion-ordered, matching lazy series creation). -/
def upsertEntry {κ α : Type} [DecidableEq κ] (k : κ) (init : α) (f : α → α) :
    List (κ × α) → List (κ × α)
  | [] => [(k, f init)]
  | (k', v) :: rest =>
    if k' = k then (k', f v) :: rest else (k', v) :: upsertEntry k init f rest

/-! ## Request-lifecycle hooks, embedded from `app.py`

`before_request` (app.py lines 54–58) increments the in-flight gauge and
stashes `time.time()` on the request; `after_request` (lines 61–79)
decrements the gauge, observes the elapsed duration into
`request_duration` labeled by method and endpoint, and increments
`request_count` labeled by method, endpoint and status code.  The Python
expression `request.endpoint or 'unknown'` yields `'unknown'` both for
`None` and for an empty string (falsy). -/

/-- The label value used for the `endpoint` label: `request.endpoint or
'unknown'` from `app.py` (Python `or` treats `None` and `""` as falsy). -/
def endpointLabel : Option String → String
  | none => "unknown"
  | some e => if e = "" then "unknown" else e

/-- The per-request data `after_request` reads from Flask's request object. -/
structure RequestCtx where
  method : String
  endpoint : Option String
deriving DecidableEq, Repr

/-- The metric state touched by the two request hooks in `app.py`:
the `http_requests_active` gauge, the `http_request_duration_seconds`
histogram family keyed by (method, endpoint), and the
`http_requests_total` counter family keyed by (method, endpoint, status). -/
structure AppState where
  activeRequests : ℚ
  requestDuration : List ((String × String) × HistogramSeries)
  requestCount : List ((String × String × ℕ) × ℚ)
deriving DecidableEq, Repr

/-- Bucket bounds with which a duration-histogram series is created.  The
library's default bounds are not in the sources and no claim constrains
them; the model uses no finite buckets (only the `+infinity` sentinel). -/
def appBuckets : List ℚ := []

/-- `before_request` from `app.py`: increment the in-flight gauge and
record the start timestamp (returned alongside, standing for
`request.start_time`). -/
def beforeRequest (now : ℚ) (s : AppState) : AppState × ℚ :=
  ({ s with activeRequests := s.activeRequests + 1 }, now)

/-- `after_request` from `app.py`: decrement the in-flight gauge, observe
`time.time() - request.start_time` into the duration histogram labeled by
method and endpoint, and increment the request counter labeled by method,
endpoint and status code. -/
def afterRequest (req : RequestCtx) (startTime now : ℚ) (status : ℕ)
    (s : AppState) : AppState :=
  let ep := endpointLabel req.endpoint
  { activeRequests := s.activeRequests - 1
    requestDuration :=
      upsertEntry (req.method, ep) (histInit appBuckets)
        (histObserve (now - startTime)) s.requestDuration
    requestCount :=
      upsertEntry (req.method, ep, status) 0 (· + 1) s.requestCount }

/-! ## Registry core (modelled from the spec)

`Modelled from the spec:` §3 (MetricDescriptor, MetricFamily, Registry),
§4.1 (`getOrCreateSeries`) and §4.3 (`register`).  The `prometheus_client`
registry is not part of `src/`; only its call sites in `app.py` are. -/

/-- `Modelled from the spec:` the metric kinds (§3). -/
inductive MetricKind
  | counter
  | histogram
  | gauge
deriving DecidableEq, Repr

/-- `Modelled from the spec:` immutable identity of a metric (§3). -/
structure MetricDescriptor where
  name : String
  help : String
  kind : MetricKind
  labelNames : List String
deriving DecidableEq, Repr

/-- The per-series accumulator of one labeled series (§3).  The histogram
variant stores the `+infinity` sentinel bucket count separately. -/
inductive SeriesData
  | counterS (value : ℚ)
  | gaugeS (value : ℚ)
  | histS (bounds : List ℚ) (counts : List ℕ) (infCount : ℕ) (sum : ℚ) (total : ℕ)
deriving DecidableEq, Repr

/-- `Modelled from the spec:` a family owns its descriptor, the histogram
bucket bounds fixed at construction (§4.1), and its lazily created series
in creation order. -/
structure MetricFamily where
  descriptor : MetricDescriptor
  bucketBounds : List ℚ
  series : List (List String × SeriesData)
deriving DecidableEq, Repr

/-- `Modelled from the spec:` process-wide registry: families in
registration order. -/
structure Registry where
  families : List MetricFamily
deriving DecidableEq, Repr

/-- First registered family with the given name, if any. -/
def findFamily (name : String) (r : Registry) : Option MetricFamily :=
  r.families.find? (fun f => f.descriptor.name = name)

/-- `Modelled from the spec:` two descriptors for the same name are
compatible when kind and label names agree (§4.3); help text is not part
of the conflict check. -/
def descriptorCompatible (d1 d2 : MetricDescriptor) : Prop :=
  d1.kind = d2.kind ∧ d1.labelNames = d2.labelNames

instance (d1 d2 : MetricDescriptor) : Decidable (descriptorCompatible d1 d2) := by
  unfold descriptorCompatible; infer_instance

/-- `Modelled from the spec:` `register` (§4.3, §6): idempotent on an
identical descriptor, `DuplicateMetricError` on a conflicting one, and
otherwise stores a fresh empty family at the end of the registration
order.  `bounds` carries the histogram bucket bounds (§6). -/
def register (d : MetricDescriptor) (bounds : List ℚ) (r : Registry) :
    Except RegistryError (MetricFamily × Registry) :=
  match findFamily d.name r with
  | some f =>
    if descriptorCompatible f.descriptor d then .ok (f, r)
    else .error .duplicateMetric
  | none =>
    let f : MetricFamily := ⟨d, bounds, []⟩
    .ok (f, ⟨r.families ++ [f]⟩)

/-- `Modelled from the spec:` the zero-initialized series for a family
(§4.1): value 0 for Counter/Gauge; all-zero buckets, sum and count for
Histogram, with the family's fixed bucket bounds. -/
def zeroSeries (f : MetricFamily) : SeriesData :=
  match f.descriptor.kind with
  | .counter => .counterS 0
  | .gauge => .gaugeS 0
  | .histogram => .histS f.bucketBounds (f.bucketBounds.map (fun _ => 0)) 0 0 0

/-- `Modelled from the spec:` `getOrCreateSeries` (§4.1): rejects a
label-value list of the wrong length with `LabelCardinalityError`,
returns the existing series for an exact label-value match, and otherwise
creates and stores a zero-initialized one. -/
def getOrCreateSeries (values : List String) (f : MetricFamily) :
    Except RegistryError (SeriesData × MetricFamily) :=
  if values.length ≠ f.descriptor.labelNames.length then .error .labelCardinality
  else
    match getEntry values f.series with
    | some s => .ok (s, f)
    | none =>
      let s := zeroSeries f
      .ok (s, { f with series := f.series ++ [(values, s)] })

/-- Update (creating on first use) the series under `values` in one
family; the label-cardinality check guards the call as in §4.1, and an
error from the per-series update aborts without mutating anything. -/
def familyModify (values : List String)
    (upd : SeriesData → Except RegistryError SeriesData) (f : MetricFamily) :
    Except RegistryError MetricFamily :=
  if values.length ≠ f.descriptor.labelNames.length then .error .labelCardinality
  else
    match getEntry values f.series with
    | some s =>
      (upd s).map (fun s' => { f with series := upsertEntry values s (fun _ => s') f.series })
    | none =>
      (upd (zeroSeries f)).map (fun s' => { f with series := f.series ++ [(values, s')] })

/-- Apply `familyModify` to the (first) family registered under `name`,
leaving all other families untouched; an unknown name is a no-op. -/
def modifyFamilies (name : String) (values : List String)
    (upd : SeriesData → Except RegistryError SeriesData) :
    List MetricFamily → Except RegistryError (List MetricFamily)
  | [] => .ok []
  | f :: rest =>
    if f.descriptor.name = name then
      (familyModify values upd f).map (· :: rest)
    else
      (modifyFamilies name values upd rest).map (f :: ·)

/-- Registry-level series update: resolve the family by name, then the
series by label values, then apply the per-series update. -/
def modifySeries (name : String) (values : List String)
    (upd : SeriesData → Except RegistryError SeriesData) (r : Registry) :
    Except RegistryError Registry :=
  (modifyFamilies name values upd r.families).map Registry.mk

/-- How a caller that keeps its registry on a failed call ends up: a
per-call error leaves the registry state unchanged (§7). -/
def modifySeriesOrKeep (name : String) (values : List String)
    (upd : SeriesData → Except RegistryError SeriesData) (r : Registry) : Registry :=
  match modifySeries name values upd r with
  | .ok r' => r'
  | .error _ => r

/-- `counter.increment(labels, delta)` at registry level (§6): resolves the
labeled series and applies the Counter increment; a non-Counter series
rejects the update. -/
def counterIncLabels (name : String) (values : List String) (d : ℚ) (r : Registry) :
    Except RegistryError Registry :=
  modifySeries name values
    (fun s =>
      match s with
      | .counterS v => (counterIncrement d v).map .counterS
      | _ => .error .invalidMetricValue) r

/-! ## Exposition renderer (modelled from the spec)

`Modelled from the spec:` §4.4 `render(registry)`: families in
registration order; per family a help comment line, a type comment line,
then one data line per series in the format
`metric_name` `lbrace` `label1="v1",label2="v2"` `rbrace` `value`; histogram
families expand into `_bucket` lines with a `le` label (literal `+Inf`
token for the infinity bucket) plus `_sum` and `_count` lines; label
values escape quote and backslash characters.  Values print as the
numerator, followed by `/` and the denominator when it is not 1. -/

/-- The decimal digit character for `d < 10`. -/
def digitChar (d : ℕ) : Char := Char.ofNat (48 + d)

/-- Decimal digits of `n` (most significant first), by fuel so that the
definition is structural and evaluable; empty when `n = 0`. -/
def natCharsAux : ℕ → ℕ → List Char
  | 0, _ => []
  | fuel + 1, n => if n = 0 then [] else natCharsAux fuel (n / 10) ++ [digitChar (n % 10)]

/-- Decimal rendering of a natural number. -/
def natChars (n : ℕ) : List Char := if n = 0 then ['0'] else natCharsAux n n

/-- Rendering of a rational metric value: optional minus sign, numerator,
and `/denominator` when the denominator is not 1. -/
def ratChars (q : ℚ) : List Char :=
  (if q.num < 0 then ['-'] else []) ++ natChars q.num.natAbs ++
    (if q.den = 1 then [] else '/' :: natChars q.den)

/-- `Modelled from the spec:` label-value escaping (§4.4): quote and
backslash characters are prefixed with a backslash. -/
def escapeChars : List Char → List Char
  | [] => []
  | c :: cs =>
    if c = '\"' || c = '\\' then '\\' :: c :: escapeChars cs else c :: escapeChars cs

/-- One exported series datum: metric name, label assignment in label
order, and the rendered numeric value. -/
abbrev ExpoTriple := String × List (String × String) × ℚ

/-- `label="escaped value"`. -/
def renderPair (p : String × String) : List Char :=
  p.1.data ++ '=' :: '\"' :: (escapeChars p.2.data ++ ['\"'])

/-- Comma-separated label pairs. -/
def renderPairs : List (String × String) → List Char
  | [] => []
  | p :: ps =>
    match ps with
    | [] => renderPair p
    | _ :: _ => renderPair p ++ ',' :: renderPairs ps

/-- One data line of the exposition format. -/
def renderLine (t : ExpoTriple) : List Char :=
  t.1.data ++ lbrace :: (renderPairs t.2.1 ++ rbrace :: ' ' :: ratChars t.2.2)

/-- Rendering of a histogram bucket bound as a `le` label value. -/
def boundLabel (b : ℚ) : String := String.mk (ratChars b)

/-- The exported data triples of one labeled series: a single triple for a
Counter or Gauge; `_bucket` (with `le` label, `+Inf` for the sentinel),
`_sum` and `_count` triples for a Histogram. -/
def seriesTriples (d : MetricDescriptor) (kv : List String × SeriesData) :
    List ExpoTriple :=
  let ls := d.labelNames.zip kv.1
  match kv.2 with
  | .counterS v => [(d.name, ls, v)]
  | .gaugeS v => [(d.name, ls, v)]
  | .histS bounds counts infC s tot =>
    ((bounds.zip counts).map
      (fun bc => (d.name ++ "_bucket", ls ++ [("le", boundLabel bc.1)], (bc.2 : ℚ))))
    ++ [(d.name ++ "_bucket", ls ++ [("le", "+Inf")], (infC : ℚ)),
        (d.name ++ "_sum", ls, s),
        (d.name ++ "_count", ls, (tot : ℚ))]

/-- All data triples of one family, in series-creation order. -/
def familyTriples (f : MetricFamily) : List ExpoTriple :=
  f.series.flatMap (seriesTriples f.descriptor)

/-- All data triples of the registry, in registration order: the
(name, labels, value) content present at render time. -/
def registryTriples (r : Registry) : List ExpoTriple :=
  r.families.flatMap familyTriples

/-- The `TYPE` comment token of a metric kind. -/
def kindChars : MetricKind → List Char
  | .counter => "counter".data
  | .histogram => "histogram".data
  | .gauge => "gauge".data

/-- The `# HELP name help` comment line. -/
def helpLine (f : MetricFamily) : List Char :=
  '#' :: ' ' :: ("HELP ".data ++ f.descriptor.name.data ++ ' ' :: f.descriptor.help.data)

/-- The `# TYPE name kind` comment line. -/
def typeLine (f : MetricFamily) : List Char :=
  '#' :: ' ' :: ("TYPE ".data ++ f.descriptor.name.data ++ ' ' :: kindChars f.descriptor.kind)

/-- All exposition lines of one family: help and type comments, then one
data line per triple. -/
def familyLines (f : MetricFamily) : List (List Char) :=
  helpLine f :: typeLine f :: (familyTriples f).map renderLine

/-- Join lines with a separator character (no trailing separator). -/
def joinWith (c : Char) : List (List Char) → List Char
  | [] => []
  | l :: ls =>
    match ls with
    | [] => l
    | _ :: _ => l ++ c :: joinWith c ls

/-- `Modelled from the spec:` `render(registry)` (§4.4), as a character
sequence: newline-joined lines of every family in registration order. -/
def renderChars (r : Registry) : List Char :=
  joinWith '\n' (r.families.flatMap familyLines)

/-- `render(registry)` as the exposition response body. -/
def renderText (r : Registry) : String := String.mk (renderChars r)

/-- A data line is a nonempty line that is not a `#` comment. -/
def isDataLine : List Char → Bool
  | [] => false
  | c :: _ => c ≠ '#'

/-- Split a character sequence at every occurrence of the separator. -/
def splitOnChar (c : Char) : List Char → List (List Char)
  | [] => [[]]
  | x :: xs =>
    match splitOnChar c xs with
    | [] => [[x]]
    | r :: rs => if x = c then [] :: r :: rs else (x :: r) :: rs

/-- The data (series) lines of the rendered exposition text. -/
def seriesLines (r : Registry) : List String :=
  ((splitOnChar '\n' (renderChars r)).filter isDataLine).map String.mk

/-- One scrape call: the response body, and the registry it leaves behind
(scraping is read-only). -/
def scrape (r : Registry) : String × Registry := (renderText r, r)

/-- The bodies of `n` consecutive scrape calls with no intervening metric
updates. -/
def scrapeSeq : ℕ → Registry → List String
  | 0, _ => []
  | n + 1, r => (scrape r).1 :: scrapeSeq n (scrape r).2

/-! ## Exposition parser

A recursive-descent reader of the text format of §4.4, used to state the
round-trip property: comment lines are skipped, every remaining line is
read back into an `ExpoTriple`. -/

/-- The digit value of a decimal digit character. -/
def charToDigit (c : Char) : ℕ := c.toNat - 48

/-- Read a nonempty all-digit sequence as a natural number. -/
def charsToNat (l : List Char) : Option ℕ :=
  if !l.isEmpty && l.all Char.isDigit then
    some (l.foldl (fun a c => 10 * a + charToDigit c) 0)
  else none

/-- Read a rendered rational value: optional minus sign, numerator, and
optional `/denominator`. -/
def charsToRat (l : List Char) : Option ℚ :=
  let l1 := if l.head? = some '-' then l.tail else l
  let sgn : ℤ := if l.head? = some '-' then -1 else 1
  match charsToNat (l1.takeWhile (fun c => c ≠ '/')) with
  | none => none
  | some n =>
    match l1.dropWhile (fun c => c ≠ '/') with
    | [] => some ((sgn * n : ℤ) : ℚ)
    | c :: denPart =>
      if c = '/' then
        match charsToNat denPart with
        | none => none
        | some dn =>
          if dn = 0 then none else some (((sgn * n : ℤ) : ℚ) / (dn : ℚ))
      else none

/-- Read an escaped label value up to its closing quote (fuel-bounded);
returns the value and the characters after the quote. -/
def parseQuotedAux : ℕ → List Char → Option (List Char × List Char)
  | fuel, l =>
    match l with
    | [] => none
    | c :: rest =>
      match fuel with
      | 0 => none
      | fuel + 1 =>
        if c = '\"' then some ([], rest)
        else if c = '\\' then
          match rest with
          | [] => none
          | c2 :: rest2 =>
            match parseQuotedAux fuel rest2 with
            | none => none
            | some (v, r) => some (c2 :: v, r)
        else
          match parseQuotedAux fuel rest with
          | none => none
          | some (v, r) => some (c :: v, r)

/-- Read an escaped label value up to its closing quote; returns the value
and the characters after the quote. -/
def parseQuoted (l : List Char) : Option (List Char × List Char) :=
  parseQuotedAux l.length l

/-- Read one `label="value"` pair. -/
def parseKV (l : List Char) : Option ((String × String) × List Char) :=
  match l.dropWhile (fun c => c ≠ '=') with
  | '=' :: '\"' :: rest =>
    match parseQuoted rest with
    | none => none
    | some (v, r) =>
      some ((String.mk (l.takeWhile (fun c => c ≠ '=')), String.mk v), r)
  | _ => none

/-- Read the label pairs up to the closing brace (fuel-bounded recursion);
returns the pairs and the characters after the brace. -/
def parsePairsAux : ℕ → List Char → Option (List (String × String) × List Char)
  | fuel, l =>
    if l.head? = some rbrace then some ([], l.tail)
    else
      match fuel with
      | 0 => none
      | fuel' + 1 =>
        match parseKV l with
        | none => none
        | some (kv, r) =>
          match r with
          | [] => none
          | c :: r2 =>
            if c = ',' then
              match parsePairsAux fuel' r2 with
              | none => none
              | some (ps, r3) => some (kv :: ps, r3)
            else if c = rbrace then some ([kv], r2)
            else none

/-- Read one data line back into its (name, labels, value) triple. -/
def parseLine (l : List Char) : Option ExpoTriple :=
  match l.dropWhile (fun c => c ≠ lbrace) with
  | [] => none
  | c :: rest =>
    if c = lbrace then
      match parsePairsAux rest.length rest with
      | some (ps, c2 :: valChars) =>
        if c2 = ' ' then
          match charsToRat valChars with
          | some q => some (String.mk (l.takeWhile (fun ch => ch ≠ lbrace)), ps, q)
          | none => none
        else none
      | _ => none
    else none

/-- Read every line of a line list, failing if any line fails. -/
def parseLines : List (List Char) → Option (List ExpoTriple)
  | [] => some []
  | l :: ls =>
    match parseLine l, parseLines ls with
    | some t, some ts => some (t :: ts)
    | _, _ => none

/-- Parse exposition text back into its data triples: split into lines,
drop comment lines, read every data line. -/
def parseExposition (s : String) : Option (List ExpoTriple) :=
  parseLines ((splitOnChar '\n' s.data).filter isDataLine)

/-! ## Interleavings (for the concurrency claim)

Per §5 each `increment` is atomic (linearizable), so a concurrent
execution of several threads of `increment` calls against one series is
an arbitrary interleaving of the per-thread call sequences. -/

/-- `Interleaving ls l`: `l` is an order-preserving merge of the thread
call sequences `ls`. -/
inductive Interleaving : List (List ℚ) → List ℚ → Prop
  | nil (ls : List (List ℚ)) : (∀ l ∈ ls, l = []) → Interleaving ls []
  | step (ls : List (List ℚ)) (i : ℕ) (x : ℚ) (rest : List ℚ) (l : List ℚ) :
      ls[i]? = some (x :: rest) → Interleaving (ls.set i rest) l →
      Interleaving ls (x :: l)

/-- Descriptor used by the C4 witness. -/
def c4Desc : MetricDescriptor :=
  ⟨"http_requests_total", "Total HTTP requests", .counter, ["method", "status"]⟩

/-- The family the C4 witness registry already holds. -/
def c4Fam : MetricFamily := ⟨c4Desc, [], []⟩

/-- Registry holding `c4Fam`, for the C4 witness. -/
def c4Reg : Registry := ⟨[c4Fam]⟩

/-- Same name as `c4Desc` with a conflicting kind. -/
def c4DescConflict : MetricDescriptor :=
  ⟨"http_requests_total", "Total HTTP requests", .gauge, ["method", "status"]⟩

/-- Family with two label names, for the C6 witness. -/
def c6Fam : MetricFamily := ⟨⟨"m", "help text", .counter, ["a", "b"]⟩, [], []⟩

/-- Registry holding `c6Fam`, for the C6 witness. -/
def c6Reg : Registry := ⟨[c6Fam]⟩

/-- The C5 scenario descriptor: a Counter named `http_requests_total`
with label names `[method, status]`. -/
def c5Desc : MetricDescriptor :=
  ⟨"http_requests_total", "Total HTTP requests", .counter, ["method", "status"]⟩

/-- C5 scenario: register the counter, increment `(GET, 200)` three times
and `(GET, 500)` once, then take the data (series) lines of the export. -/
def c5Scenario : Except RegistryError (List String) :=
  (register c5Desc [] ⟨[]⟩).bind (fun fr =>
    (counterIncLabels "http_requests_total" ["GET", "200"] 1 fr.2).bind (fun r2 =>
      (counterIncLabels "http_requests_total" ["GET", "200"] 1 r2).bind (fun r3 =>
        (counterIncLabels "http_requests_total" ["GET", "200"] 1 r3).bind (fun r4 =>
          (counterIncLabels "http_requests_total" ["GET", "500"] 1 r4).map seriesLines))))

/-! ## Round-trip well-formedness (C7)

The spec's escaping rule (§4.4) covers only quote and backslash, so the
text format is invertible only for content that cannot forge the format's
own structure: names that are nonempty, do not start a comment, and
contain no brace-open or newline; label names free of `=`, closing brace
and newline; label values free of newline. -/

/-- A data triple whose rendered line can be read back unambiguously. -/
def wfTriple (t : ExpoTriple) : Prop :=
  t.1.data ≠ [] ∧ t.1.data.head? ≠ some '#' ∧ lbrace ∉ t.1.data ∧ '\n' ∉ t.1.data ∧
    ∀ p ∈ t.2.1, '=' ∉ p.1.data ∧ rbrace ∉ p.1.data ∧ '\n' ∉ p.1.data ∧ '\n' ∉ p.2.data

instance (t : ExpoTriple) : Decidable (wfTriple t) := by
  unfold wfTriple; infer_instance

/-- A registry whose rendered exposition text can be read back: newline-free
names and help texts, and well-formed data triples. -/
def wfRegistry (r : Registry) : Prop :=
  (∀ f ∈ r.families, '\n' ∉ f.descriptor.name.data ∧ '\n' ∉ f.descriptor.help.data) ∧
    ∀ t ∈ registryTriples r, wfTriple t

instance (r : Registry) : Decidable (wfRegistry r) := by
  unfold wfRegistry; infer_instance

/-- Registry exercised by the C7 witness: one Counter family and one
Histogram family with well-formed names, labels and values. -/
def c7Reg : Registry :=
  ⟨[⟨⟨"http_requests_total", "Total HTTP requests", .counter, ["method"]⟩, [],
      [(["GET"], .counterS 3)]⟩,
    ⟨⟨"req_seconds", "Request duration", .histogram, ["method"]⟩, [5],
      [(["GET"], .histS [5] [2] 3 7 3)]⟩]⟩

/-- Registry refuting C7 as stated: a label value containing a newline
(escaping covers only quote and backslash, §4.4) breaks the line
structure of the exposition text. -/
def c7BadReg : Registry :=
  ⟨[⟨⟨"m", "h", .counter, ["l"]⟩, [], [(["a\nb"], .counterS 1)]⟩]⟩

/-! ## Helper lemmas -/

theorem counterApply_nonneg (d v : ℚ) (h : 0 ≤ d) : counterApply d v = v + d := by
  simp [counterApply, counterIncrement, if_neg (not_lt.mpr h)]

theorem counterApply_neg (d v : ℚ) (h : d < 0) : counterApply d v = v := by
  simp [counterApply, counterIncrement, if_pos h]

theorem applyIncrements_sum (ds : List ℚ) (v : ℚ) (h : ∀ d ∈ ds, 0 ≤ d) :
    applyIncrements ds v = v + ds.sum := by
  induction ds generalizing v with
  | nil => simp [applyIncrements]
  | cons d ds ih =>
    have hd : 0 ≤ d := h d (List.mem_cons_self _ _)
    have hrest := ih (v + d) (fun x hx => h x (List.mem_cons_of_mem _ hx))
    simp only [applyIncrements, List.foldl_cons] at hrest ⊢
    rw [counterApply_nonneg _ _ hd, hrest, List.sum_cons]
    ring

theorem zip_map_self {α β γ : Type} (f : α → β) (g : α × β → γ) (l : List α) :
    (l.zip (l.map f)).map g = l.map (fun a => g (a, f a)) := by
  induction l with
  | nil => rfl
  | cons a l ih => simp [ih]

/-- One observation updates the closed-form histogram state for the
observation list `us` to the one for `us ++ [v]`. -/
theorem histObserve_closed (bounds : List ℚ) (us : List ℚ) (v : ℚ) :
    histObserve v
      ⟨bounds, bounds.map (fun b => us.countP (fun w => decide (w ≤ b))),
        us.length, us.sum, us.length⟩ =
      ⟨bounds, bounds.map (fun b => (us ++ [v]).countP (fun w => decide (w ≤ b))),
        (us ++ [v]).length, (us ++ [v]).sum, (us ++ [v]).length⟩ := by
  simp only [histObserve]
  refine HistogramSeries.mk.injEq .. |>.mpr ⟨rfl, ?_, by simp, by simp, by simp⟩
  rw [zip_map_self]
  refine List.map_congr_left (fun b _ => ?_)
  by_cases hv : v ≤ b <;>
    simp [hv, List.countP_append, List.countP_cons]

theorem histObserveAll_closed (bounds : List ℚ) (vs us : List ℚ) :
    histObserveAll vs
      ⟨bounds, bounds.map (fun b => us.countP (fun w => decide (w ≤ b))),
        us.length, us.sum, us.length⟩ =
      ⟨bounds, bounds.map (fun b => (us ++ vs).countP (fun w => decide (w ≤ b))),
        (us ++ vs).length, (us ++ vs).sum, (us ++ vs).length⟩ := by
  induction vs generalizing us with
  | nil => simp [histObserveAll]
  | cons v vs ih =>
    simp only [histObserveAll, List.foldl_cons] at ih ⊢
    rw [histObserve_closed, ih (us ++ [v])]
    simp

theorem getEntry_upsertEntry {κ α : Type} [DecidableEq κ] (k : κ) (init : α)
    (f : α → α) (l : List (κ × α)) :
    getEntry k (upsertEntry k init f l) = some (f ((getEntry k l).getD init)) := by
  induction l with
  | nil => simp [getEntry, upsertEntry]
  | cons p l ih =>
    obtain ⟨k', v⟩ := p
    by_cases hk : k' = k
    · simp [getEntry, upsertEntry, hk]
    · simp [getEntry, upsertEntry, hk, ih]

/-! ## Claim theorems (first batch) -/

/-- C1: for every Counter series and finite sequence of `increment(d)`
calls with each `d ≥ 0`, the final value equals the sum of the deltas; a
call with `d < 0` is rejected with `InvalidMetricValueError` and leaves
the series value unchanged. -/
theorem c1_counter_increment_sum_and_reject :
    (∀ ds : List ℚ, (∀ d ∈ ds, 0 ≤ d) → applyIncrements ds 0 = ds.sum) ∧
    (∀ v d : ℚ, d < 0 →
      counterIncrement d v = .error .invalidMetricValue ∧ counterApply d v = v) := by
  constructor
  · intro ds h
    rw [applyIncrements_sum ds 0 h, zero_add]
  · intro v d hd
    exact ⟨by simp [counterIncrement, if_pos hd], counterApply_neg d v hd⟩

/-- Witness for C1 at the deltas `[1, 2, 3]` and the rejected delta `-1`. -/
theorem c1_counter_increment_witness :
    applyIncrements [1, 2, 3] 0 = (6 : ℚ) ∧
    counterIncrement (-1) 5 = .error .invalidMetricValue ∧
    counterApply (-1) 5 = (5 : ℚ) := by
  refine ⟨?_, ?_, ?_⟩
  · rw [c1_counter_increment_sum_and_reject.1 [1, 2, 3] (by decide)]
    norm_num
  · exact (c1_counter_increment_sum_and_reject.2 5 (-1) (by decide)).1
  · exact (c1_counter_increment_sum_and_reject.2 5 (-1) (by decide)).2

/-- C2: after observing exactly `v1..vn` on a fresh Histogram series,
`totalCount = n`, `sum = Σ vi`, every bucket with bound `b` counts the
observations `≤ b`, and the `+infinity` bucket count equals `totalCount`. -/
theorem c2_histogram_observe_spec (bounds vs : List ℚ) :
    (histObserveAll vs (histInit bounds)).totalCount = vs.length ∧
    (histObserveAll vs (histInit bounds)).sum = vs.sum ∧
    (histObserveAll vs (histInit bounds)).bucketCounts =
      bounds.map (fun b => vs.countP (fun w => decide (w ≤ b))) ∧
    (histObserveAll vs (histInit bounds)).infCount =
      (histObserveAll vs (histInit bounds)).totalCount := by
  have hinit : histInit bounds =
      ⟨bounds, bounds.map (fun b => ([] : List ℚ).countP (fun w => decide (w ≤ b))),
        ([] : List ℚ).length, ([] : List ℚ).sum, ([] : List ℚ).length⟩ := by
    simp [histInit]
  rw [hinit, histObserveAll_closed]
  simp

/-- C3: a request increments the in-flight gauge and records the start
timestamp; completion decrements the gauge back to its pre-request value,
observes the elapsed duration into the method/endpoint-labeled duration
histogram, and increments the method/endpoint/status-labeled request
counter by one. -/
theorem c3_request_lifecycle (s : AppState) (t1 t2 : ℚ) (req : RequestCtx) (status : ℕ) :
    (beforeRequest t1 s).1.activeRequests = s.activeRequests + 1 ∧
    (beforeRequest t1 s).2 = t1 ∧
    (afterRequest req (beforeRequest t1 s).2 t2 status (beforeRequest t1 s).1).activeRequests
      = s.activeRequests ∧
    getEntry (req.method, endpointLabel req.endpoint)
        (afterRequest req (beforeRequest t1 s).2 t2 status (beforeRequest t1 s).1).requestDuration
      = some (histObserve (t2 - t1)
          ((getEntry (req.method, endpointLabel req.endpoint) s.requestDuration).getD
            (histInit appBuckets))) ∧
    getEntry (req.method, endpointLabel req.endpoint, status)
        (afterRequest req (beforeRequest t1 s).2 t2 status (beforeRequest t1 s).1).requestCount
      = some (((getEntry (req.method, endpointLabel req.endpoint, status) s.requestCount).getD 0) + 1) := by
  refine ⟨rfl, rfl, ?_, ?_, ?_⟩
  · simp [beforeRequest, afterRequest]
  · simp [beforeRequest, afterRequest, getEntry_upsertEntry]
  · simp [beforeRequest, afterRequest, getEntry_upsertEntry]

/-- C10: a completed request with an unresolved endpoint (`request.endpoint`
is `None`) still records both the duration observation and the count
increment, under the literal label value `"unknown"`. -/
theorem c10_unknown_endpoint (s : AppState) (m : String) (startTime t2 : ℚ) (status : ℕ) :
    getEntry (m, "unknown") (afterRequest ⟨m, none⟩ startTime t2 status s).requestDuration
      = some (histObserve (t2 - startTime)
          ((getEntry (m, "unknown") s.requestDuration).getD (histInit appBuckets))) ∧
    getEntry (m, "unknown", status) (afterRequest ⟨m, none⟩ startTime t2 status s).requestCount
      = some (((getEntry (m, "unknown", status) s.requestCount).getD 0) + 1) := by
  constructor <;> simp [afterRequest, endpointLabel, getEntry_upsertEntry]

/-! ## Claim theorems (registry and exporter behaviour) -/

/-- C4: re-registering an existing name with an identical descriptor
(same kind and label names) succeeds, returns the registered family and
leaves the registry unchanged; a conflicting kind or label-name list
fails with `DuplicateMetricError`. -/
theorem c4_register_idempotent_or_conflict (r : Registry) (d : MetricDescriptor)
    (bounds : List ℚ) (f : MetricFamily) (hf : findFamily d.name r = some f) :
    ((f.descriptor.kind = d.kind ∧ f.descriptor.labelNames = d.labelNames) →
        register d bounds r = .ok (f, r)) ∧
    ((f.descriptor.kind ≠ d.kind ∨ f.descriptor.labelNames ≠ d.labelNames) →
        register d bounds r = .error .duplicateMetric) := by
  constructor
  · intro hc
    have : descriptorCompatible f.descriptor d := ⟨hc.1, hc.2⟩
    simp [register, hf, if_pos this]
  · intro hc
    have : ¬ descriptorCompatible f.descriptor d := by
      intro hcc
      rcases hc with h | h
      exacts [h hcc.1, h hcc.2]
    simp [register, hf, if_neg this]

/-- Witness for C4: identical re-registration is idempotent and a kind
conflict raises `DuplicateMetricError`. -/
theorem c4_register_witness :
    register c4Desc [] c4Reg = .ok (c4Fam, c4Reg) ∧
    register c4DescConflict [] c4Reg = .error .duplicateMetric := by
  constructor
  · exact (c4_register_idempotent_or_conflict c4Reg c4Desc [] c4Fam (by decide)).1 (by decide)
  · exact (c4_register_idempotent_or_conflict c4Reg c4DescConflict [] c4Fam (by decide)).2
      (by decide)

theorem modifyFamilies_cardinality_error (name : String) (values : List String)
    (upd : SeriesData → Except RegistryError SeriesData) (f : MetricFamily)
    (fams : List MetricFamily)
    (hf : fams.find? (fun g => g.descriptor.name = name) = some f)
    (hlen : values.length ≠ f.descriptor.labelNames.length) :
    modifyFamilies name values upd fams = .error .labelCardinality := by
  induction fams with
  | nil => simp at hf
  | cons g rest ih =>
    by_cases hg : g.descriptor.name = name
    · rw [List.find?_cons_of_pos _ (by simpa using hg)] at hf
      have hgf : g = f := by injection hf
      subst hgf
      simp [modifyFamilies, hg, familyModify, if_pos hlen, Except.map]
    · rw [List.find?_cons_of_neg _ (by simpa using hg)] at hf
      simp [modifyFamilies, hg, ih hf, Except.map]

/-- C6: resolving a series with a label-value list whose length differs
from the descriptor's label-name count fails with
`LabelCardinalityError`, both at family level and at registry level, and
a caller that keeps its registry on error observes no state change. -/
theorem c6_label_cardinality (r : Registry) (name : String) (values : List String)
    (upd : SeriesData → Except RegistryError SeriesData) (f : MetricFamily)
    (hf : findFamily name r = some f)
    (hlen : values.length ≠ f.descriptor.labelNames.length) :
    getOrCreateSeries values f = .error .labelCardinality ∧
    modifySeries name values upd r = .error .labelCardinality ∧
    modifySeriesOrKeep name values upd r = r := by
  have herr : modifySeries name values upd r = .error .labelCardinality := by
    have := modifyFamilies_cardinality_error name values upd f r.families hf hlen
    simp [modifySeries, this, Except.map]
  refine ⟨by simp [getOrCreateSeries, if_pos hlen], herr, ?_⟩
  simp [modifySeriesOrKeep, herr]

/-- Witness for C6 at a one-element label-value list against a
two-label family. -/
theorem c6_label_cardinality_witness :
    getOrCreateSeries ["x"] c6Fam = .error .labelCardinality ∧
    modifySeries "m" ["x"] Except.ok c6Reg = .error .labelCardinality ∧
    modifySeriesOrKeep "m" ["x"] Except.ok c6Reg = c6Reg :=
  c6_label_cardinality c6Reg "m" ["x"] Except.ok c6Fam (by decide) (by decide)

/-- C8: `render` is deterministic in the registry state: any number of
consecutive scrape calls with no intervening metric updates all return
the same byte-identical body `renderText r`. -/
theorem c8_render_deterministic (r : Registry) (n : ℕ) :
    scrapeSeq n r = List.replicate n (renderText r) := by
  induction n with
  | zero => rfl
  | succ n ih => simp [scrapeSeq, scrape, ih, List.replicate_succ]

/-! ## Interleaving lemmas and the concurrency claim -/

theorem flatten_eq_nil_of_all_nil {α : Type} (ls : List (List α))
    (h : ∀ l ∈ ls, l = []) : ls.flatten = [] := by
  induction ls with
  | nil => rfl
  | cons a ls ih =>
    simp [h a (List.mem_cons_self _ _),
      ih (fun l hl => h l (List.mem_cons_of_mem _ hl))]

theorem flatten_set_perm {α : Type} (ls : List (List α)) (i : ℕ) (x : α)
    (rest : List α) (h : ls[i]? = some (x :: rest)) :
    List.Perm ls.flatten (x :: (ls.set i rest).flatten) := by
  induction ls generalizing i with
  | nil => simp at h
  | cons a ls ih =>
    cases i with
    | zero =>
      have ha : a = x :: rest := by simpa using h
      subst ha
      simp [List.flatten_cons]
    | succ i =>
      have hi : ls[i]? = some (x :: rest) := by simpa using h
      have hperm := (ih i hi).append_left a
      have hmid : List.Perm (a ++ x :: (ls.set i rest).flatten)
          (x :: (a ++ (ls.set i rest).flatten)) := List.perm_middle
      simpa [List.flatten_cons] using hperm.trans hmid

theorem interleaving_perm (ls : List (List ℚ)) (l : List ℚ)
    (h : Interleaving ls l) : List.Perm l ls.flatten := by
  induction h with
  | nil ls hls => simp [flatten_eq_nil_of_all_nil ls hls]
  | step ls i x rest l hget _ ih =>
    exact ((ih.cons x).trans (flatten_set_perm ls i x rest hget).symm)

/-- Sequential execution of a single thread is an interleaving. -/
theorem interleaving_single (l : List ℚ) : Interleaving [l] l := by
  induction l with
  | nil => exact .nil _ (by simp)
  | cons x rest ih => exact .step [x :: rest] 0 x rest rest rfl ih

/-- C9: with per-series increments atomic (§5), a concurrent run of `N`
threads each performing 1000 `increment(1)` calls on one Counter series
is an interleaving of the per-thread call sequences, and every such
interleaving drives the series from 0 to exactly `N * 1000`. -/
theorem c9_concurrent_increments (N : ℕ) (sched : List ℚ)
    (h : Interleaving (List.replicate N (List.replicate 1000 (1 : ℚ))) sched) :
    applyIncrements sched 0 = N * 1000 := by
  have hperm := interleaving_perm _ _ h
  have hnonneg : ∀ x ∈ sched, (0 : ℚ) ≤ x := by
    intro x hx
    have hxf := hperm.mem_iff.mp hx
    obtain ⟨t, ht, hxt⟩ := List.mem_flatten.mp hxf
    have : t = List.replicate 1000 (1 : ℚ) := List.eq_of_mem_replicate ht
    subst this
    rw [List.eq_of_mem_replicate hxt]
    norm_num
  rw [applyIncrements_sum sched 0 hnonneg, zero_add, hperm.sum_eq, List.sum_flatten,
    List.map_replicate, List.sum_replicate, List.sum_replicate, nsmul_eq_mul, nsmul_eq_mul]
  push_cast
  ring

/-- Witness for C9 at `N = 1`: one thread of 1000 atomic `increment(1)`
calls ends at 1000. -/
theorem c9_concurrent_increments_witness :
    applyIncrements (List.replicate 1000 (1 : ℚ)) 0 = 1000 := by
  have h : Interleaving (List.replicate 1 (List.replicate 1000 (1 : ℚ)))
      (List.replicate 1000 (1 : ℚ)) := by
    rw [List.replicate_one]
    exact interleaving_single (List.replicate 1000 (1 : ℚ))
  rw [c9_concurrent_increments 1 (List.replicate 1000 (1 : ℚ)) h]
  norm_num

/-! ## The end-to-end scenario (C5) -/

set_option maxRecDepth 10000 in
/-- C5: the scenario's exported text contains exactly the two series
lines `http_requests_total` with `(GET, 200) = 3` and `(GET, 500) = 1`,
in series-creation order. -/
theorem c5_end_to_end_scenario :
    c5Scenario = .ok
      ["http_requests_total\x7bmethod=\x22GET\x22,status=\x22200\x22\x7d 3",
       "http_requests_total\x7bmethod=\x22GET\x22,status=\x22500\x22\x7d 1"] := by
  have h1 : register c5Desc [] ⟨[]⟩ = .ok (⟨c5Desc, [], []⟩, ⟨[⟨c5Desc, [], []⟩]⟩) := rfl
  have h2 : counterIncLabels "http_requests_total" ["GET", "200"] 1 ⟨[⟨c5Desc, [], []⟩]⟩
      = .ok ⟨[⟨c5Desc, [], [(["GET", "200"], .counterS 1)]⟩]⟩ := by
    norm_num [counterIncLabels, modifySeries, modifyFamilies, familyModify, getEntry,
      counterIncrement, zeroSeries, c5Desc, Except.map]
  have h3 : counterIncLabels "http_requests_total" ["GET", "200"] 1
        ⟨[⟨c5Desc, [], [(["GET", "200"], .counterS 1)]⟩]⟩
      = .ok ⟨[⟨c5Desc, [], [(["GET", "200"], .counterS 2)]⟩]⟩ := by
    norm_num [counterIncLabels, modifySeries, modifyFamilies, familyModify, getEntry,
      upsertEntry, counterIncrement, zeroSeries, c5Desc, Except.map]
  have h4 : counterIncLabels "http_requests_total" ["GET", "200"] 1
        ⟨[⟨c5Desc, [], [(["GET", "200"], .counterS 2)]⟩]⟩
      = .ok ⟨[⟨c5Desc, [], [(["GET", "200"], .counterS 3)]⟩]⟩ := by
    norm_num [counterIncLabels, modifySeries, modifyFamilies, familyModify, getEntry,
      upsertEntry, counterIncrement, zeroSeries, c5Desc, Except.map]
  have h5 : counterIncLabels "http_requests_total" ["GET", "500"] 1
        ⟨[⟨c5Desc, [], [(["GET", "200"], .counterS 3)]⟩]⟩
      = .ok ⟨[⟨c5Desc, [], [(["GET", "200"], .counterS 3), (["GET", "500"], .counterS 1)]⟩]⟩ := by
    have hne : (["GET", "200"] : List String) = ["GET", "500"] ↔ False := by simp
    norm_num [counterIncLabels, modifySeries, modifyFamilies, familyModify, getEntry,
      upsertEntry, counterIncrement, zeroSeries, c5Desc, Except.map, hne]
  have h6 : seriesLines ⟨[⟨c5Desc, [], [(["GET", "200"], .counterS 3), (["GET", "500"], .counterS 1)]⟩]⟩
      = ["http_requests_total\x7bmethod=\x22GET\x22,status=\x22200\x22\x7d 3",
         "http_requests_total\x7bmethod=\x22GET\x22,status=\x22500\x22\x7d 1"] := by
    decide
  simp only [c5Scenario, h1, Except.bind, h2, h3, h4, h5, Except.map, h6]

/-! ## Round-trip lemmas: quoting and numbers -/

theorem escapeChars_length (v : List Char) : v.length ≤ (escapeChars v).length := by
  induction v with
  | nil => simp [escapeChars]
  | cons c cs ih =>
    by_cases hc : c = '\"' ∨ c = '\\'
    · have he : escapeChars (c :: cs) = '\\' :: c :: escapeChars cs := by
        rcases hc with h | h <;> simp [escapeChars, h]
      rw [he]
      simp only [List.length_cons]
      omega
    · push_neg at hc
      have he : escapeChars (c :: cs) = c :: escapeChars cs := by
        simp [escapeChars, hc.1, hc.2]
      rw [he]
      simp only [List.length_cons]
      omega

theorem parseQuotedAux_escapeChars (fuel : ℕ) :
    ∀ v rest : List Char, v.length < fuel →
      parseQuotedAux fuel (escapeChars v ++ '\"' :: rest) = some (v, rest) := by
  induction fuel with
  | zero =>
    intro v rest h
    omega
  | succ fuel ih =>
    intro v rest h
    cases v with
    | nil =>
      rw [show escapeChars [] ++ '\"' :: rest = '\"' :: rest by simp [escapeChars]]
      rw [parseQuotedAux.eq_def]
      simp
    | cons c cs =>
      have hcs : cs.length < fuel := by
        simp only [List.length_cons] at h
        omega
      by_cases hc : c = '\"' ∨ c = '\\'
      · have he : escapeChars (c :: cs) = '\\' :: c :: escapeChars cs := by
          rcases hc with h' | h' <;> simp [escapeChars, h']
        rw [he, List.cons_append, List.cons_append, parseQuotedAux.eq_def]
        simp [ih cs rest hcs]
      · push_neg at hc
        have he : escapeChars (c :: cs) = c :: escapeChars cs := by
          simp [escapeChars, hc.1, hc.2]
        rw [he, List.cons_append, parseQuotedAux.eq_def]
        simp [hc.1, hc.2, ih cs rest hcs]

theorem parseQuoted_escapeChars (v rest : List Char) :
    parseQuoted (escapeChars v ++ '\"' :: rest) = some (v, rest) := by
  have hlen : v.length < (escapeChars v ++ '\"' :: rest).length := by
    have := escapeChars_length v
    simp only [List.length_append, List.length_cons]
    omega
  exact parseQuotedAux_escapeChars _ v rest hlen

theorem takeWhile_append_cons (p : Char → Bool) (xs : List Char) (y : Char)
    (ys : List Char) (hxs : ∀ x ∈ xs, p x = true) (hy : p y = false) :
    (xs ++ y :: ys).takeWhile p = xs := by
  induction xs with
  | nil => simp [List.takeWhile_cons, hy]
  | cons x xs ih =>
    simp [List.takeWhile_cons, hxs x (List.mem_cons_self _ _),
      ih (fun z hz => hxs z (List.mem_cons_of_mem _ hz))]

theorem dropWhile_append_cons (p : Char → Bool) (xs : List Char) (y : Char)
    (ys : List Char) (hxs : ∀ x ∈ xs, p x = true) (hy : p y = false) :
    (xs ++ y :: ys).dropWhile p = y :: ys := by
  induction xs with
  | nil => simp [List.dropWhile_cons, hy]
  | cons x xs ih =>
    simp [List.dropWhile_cons, hxs x (List.mem_cons_self _ _),
      ih (fun z hz => hxs z (List.mem_cons_of_mem _ hz))]

theorem charToDigit_digitChar (d : ℕ) (h : d < 10) : charToDigit (digitChar d) = d := by
  revert h
  revert d
  decide

theorem isDigit_digitChar (d : ℕ) (h : d < 10) : (digitChar d).isDigit = true := by
  revert h
  revert d
  decide

theorem natCharsAux_ne_nil (fuel n : ℕ) (hn : n ≠ 0) (hf : n ≤ fuel) :
    natCharsAux fuel n ≠ [] := by
  cases fuel with
  | zero => omega
  | succ fuel => simp [natCharsAux, hn]

theorem natCharsAux_digits (fuel n : ℕ) : ∀ c ∈ natCharsAux fuel n, c.isDigit = true := by
  induction fuel generalizing n with
  | zero => simp [natCharsAux]
  | succ fuel ih =>
    intro c hc
    by_cases hn : n = 0
    · simp [natCharsAux, hn] at hc
    · rw [natCharsAux, if_neg hn] at hc
      rcases List.mem_append.mp hc with h | h
      · exact ih _ c h
      · rw [List.mem_singleton.mp h]
        exact isDigit_digitChar _ (Nat.mod_lt _ (by norm_num))

theorem natCharsAux_foldl (fuel : ℕ) :
    ∀ n a, n ≤ fuel →
      (natCharsAux fuel n).foldl (fun acc c => 10 * acc + charToDigit c) a =
        a * 10 ^ (natCharsAux fuel n).length + n := by
  induction fuel with
  | zero =>
    intro n a hn
    have : n = 0 := by omega
    simp [natCharsAux, this]
  | succ fuel ih =>
    intro n a hn
    by_cases h0 : n = 0
    · simp [natCharsAux, h0]
    · rw [natCharsAux, if_neg h0]
      have hdiv : n / 10 ≤ fuel := by
        have := Nat.div_lt_self (Nat.pos_of_ne_zero h0) (by norm_num : 1 < 10)
        omega
      rw [List.foldl_append, ih (n / 10) a hdiv]
      simp only [List.foldl_cons, List.foldl_nil, List.length_append,
        List.length_singleton]
      rw [charToDigit_digitChar _ (Nat.mod_lt _ (by norm_num))]
      have hmod : 10 * (n / 10) + n % 10 = n := Nat.div_add_mod n 10
      ring_nf
      omega

theorem natChars_ne_nil (n : ℕ) : natChars n ≠ [] := by
  by_cases h : n = 0
  · simp [natChars, h]
  · simp only [natChars, if_neg h]
    exact natCharsAux_ne_nil n n h le_rfl

theorem natChars_digits (n : ℕ) : ∀ c ∈ natChars n, c.isDigit = true := by
  by_cases h : n = 0
  · intro c hc
    simp only [natChars, if_pos h, List.mem_singleton] at hc
    rw [hc]
    decide
  · simp only [natChars, if_neg h]
    exact natCharsAux_digits n n

theorem charsToNat_natChars (n : ℕ) : charsToNat (natChars n) = some n := by
  by_cases h : n = 0
  · subst h
    decide
  · have hne := natCharsAux_ne_nil n n h le_rfl
    have hdig := natCharsAux_digits n n
    have hfold := natCharsAux_foldl n n 0 le_rfl
    have hcond : (!(natCharsAux n n).isEmpty && (natCharsAux n n).all Char.isDigit) = true := by
      rw [Bool.and_eq_true]
      refine ⟨?_, ?_⟩
      · cases hx : natCharsAux n n with
        | nil => exact absurd hx hne
        | cons a l => rfl
      · rw [List.all_eq_true]
        exact hdig
    simp only [natChars, if_neg h, charsToNat, hcond, if_pos]
    rw [hfold]
    simp

theorem isDigit_ne_special (c : Char) (h : c.isDigit = true) :
    c ≠ '-' ∧ c ≠ '/' ∧ c ≠ '\n' ∧ c ≠ '#' ∧ c ≠ lbrace ∧ c ≠ rbrace ∧ c ≠ ' ' := by
  refine ⟨?_, ?_, ?_, ?_, ?_, ?_, ?_⟩ <;> intro heq <;> rw [heq] at h <;> revert h <;> decide

theorem takeWhile_all (p : Char → Bool) (l : List Char) (h : ∀ x ∈ l, p x = true) :
    l.takeWhile p = l := by
  induction l with
  | nil => rfl
  | cons x xs ih =>
    simp [List.takeWhile_cons, h x (List.mem_cons_self _ _),
      ih (fun z hz => h z (List.mem_cons_of_mem _ hz))]

theorem dropWhile_all (p : Char → Bool) (l : List Char) (h : ∀ x ∈ l, p x = true) :
    l.dropWhile p = [] := by
  induction l with
  | nil => rfl
  | cons x xs ih =>
    simp [List.dropWhile_cons, h x (List.mem_cons_self _ _),
      ih (fun z hz => h z (List.mem_cons_of_mem _ hz))]

theorem rat_cast_num_of_den_one (q : ℚ) (h : q.den = 1) : ((q.num : ℚ)) = q := by
  conv_rhs => rw [← Rat.num_div_den q]
  rw [h]
  norm_num

theorem charsToRat_ratChars (q : ℚ) : charsToRat (ratChars q) = some q := by
  have hdigs := natChars_digits q.num.natAbs
  have hslash : ∀ x ∈ natChars q.num.natAbs, (fun c => decide (c ≠ '/')) x = true := by
    intro x hx
    simp only [decide_eq_true_iff]
    exact (isDigit_ne_special x (hdigs x hx)).2.1
  have hslashchar : (fun c => decide (c ≠ '/')) '/' = false := by decide
  have htake := takeWhile_all _ (natChars q.num.natAbs) hslash
  have hdrop := dropWhile_all _ (natChars q.num.natAbs) hslash
  have htake2 := fun t => takeWhile_append_cons _ (natChars q.num.natAbs) '/' t hslash hslashchar
  have hdrop2 := fun t => dropWhile_append_cons _ (natChars q.num.natAbs) '/' t hslash hslashchar
  simp only [ne_eq, decide_not] at htake hdrop htake2 hdrop2
  have hnum := charsToNat_natChars q.num.natAbs
  have hdenn := charsToNat_natChars q.den
  have hden0 : q.den ≠ 0 := q.den_nz
  have hhd : (natChars q.num.natAbs).head? ≠ some '-' := by
    cases hnc : natChars q.num.natAbs with
    | nil => exact absurd hnc (natChars_ne_nil _)
    | cons c cs =>
      simp only [List.head?_cons, ne_eq, Option.some.injEq]
      intro hcm
      have hcd : c.isDigit = true := hdigs c (by rw [hnc]; exact List.mem_cons_self _ _)
      exact (isDigit_ne_special c hcd).1 hcm
  by_cases hneg : q.num < 0 <;> by_cases hden : q.den = 1
  · have habs2 : |(q.num : ℚ)| = -(q.num : ℚ) := abs_of_neg (by exact_mod_cast hneg)
    have hchars : ratChars q = '-' :: natChars q.num.natAbs := by
      simp [ratChars, hneg, hden]
    rw [hchars]
    simp only [charsToRat, List.head?_cons, List.tail_cons]
    simp [htake, hnum, hdrop]
    rw [habs2, neg_neg, rat_cast_num_of_den_one q hden]
  · have habs2 : |(q.num : ℚ)| = -(q.num : ℚ) := abs_of_neg (by exact_mod_cast hneg)
    have hchars : ratChars q = '-' :: (natChars q.num.natAbs ++ '/' :: natChars q.den) := by
      simp [ratChars, hneg, hden]
    rw [hchars]
    simp only [charsToRat, List.head?_cons, List.tail_cons]
    simp [htake2, hnum, hdrop2, hdenn, hden0]
    rw [habs2, neg_neg, Rat.num_div_den q]
  · have habs2 : |(q.num : ℚ)| = (q.num : ℚ) := abs_of_nonneg (by exact_mod_cast not_lt.mp hneg)
    have hchars : ratChars q = natChars q.num.natAbs := by
      simp [ratChars, hneg, hden]
    rw [hchars]
    simp only [charsToRat]
    simp [hhd, htake, hnum, hdrop]
    rw [habs2, rat_cast_num_of_den_one q hden]
  · have habs2 : |(q.num : ℚ)| = (q.num : ℚ) := abs_of_nonneg (by exact_mod_cast not_lt.mp hneg)
    have hchars : ratChars q = natChars q.num.natAbs ++ '/' :: natChars q.den := by
      simp [ratChars, hneg, hden]
    rw [hchars]
    simp only [charsToRat]
    simp [hhd, htake2, hnum, hdrop2, hdenn, hden0]
    rw [habs2, Rat.num_div_den q]

/-! ## Round-trip lemmas: label pairs and data lines -/

theorem parseKV_renderPair (k v : String) (rest : List Char) (hk : '=' ∉ k.data) :
    parseKV (renderPair (k, v) ++ rest) = some ((k, v), rest) := by
  have hkeq : ∀ x ∈ k.data, (fun c => decide (c ≠ '=')) x = true := by
    intro x hx
    simp only [decide_eq_true_iff]
    intro heq
    exact hk (heq ▸ hx)
  have heqchar : (fun c => decide (c ≠ '=')) '=' = false := by decide
  have hshape : renderPair (k, v) ++ rest
      = k.data ++ '=' :: ('\"' :: (escapeChars v.data ++ '\"' :: rest)) := by
    simp [renderPair]
  rw [hshape]
  simp only [parseKV,
    dropWhile_append_cons _ k.data '=' _ hkeq heqchar,
    takeWhile_append_cons _ k.data '=' _ hkeq heqchar,
    parseQuoted_escapeChars]

theorem renderPair_append_head_ne_rbrace (p : String × String) (t : List Char)
    (hk : rbrace ∉ p.1.data) : (renderPair p ++ t).head? ≠ some rbrace := by
  cases hp : p.1.data with
  | nil =>
    simp only [renderPair, hp, List.nil_append, List.cons_append, List.head?_cons]
    decide
  | cons c cs =>
    simp only [renderPair, hp, List.cons_append, List.head?_cons, ne_eq,
      Option.some.injEq]
    intro hcr
    rw [hp] at hk
    exact hk (hcr ▸ List.mem_cons_self _ _)

theorem renderPair_length_pos (p : String × String) : 1 ≤ (renderPair p).length := by
  simp only [renderPair, List.length_append, List.length_cons]
  omega

theorem renderPairs_length (ps : List (String × String)) :
    ps.length ≤ (renderPairs ps).length := by
  induction ps with
  | nil => simp [renderPairs]
  | cons p ps ih =>
    cases ps with
    | nil =>
      simp only [renderPairs, List.length_cons, List.length_nil]
      have := renderPair_length_pos p
      omega
    | cons q qs =>
      simp only [renderPairs, List.length_append, List.length_cons] at ih ⊢
      have := renderPair_length_pos p
      omega

theorem parsePairsAux_renderPairs (ps : List (String × String)) :
    ∀ (fuel : ℕ) (rest : List Char), ps.length ≤ fuel →
      (∀ p ∈ ps, '=' ∉ p.1.data ∧ rbrace ∉ p.1.data) →
      parsePairsAux fuel (renderPairs ps ++ rbrace :: rest) = some (ps, rest) := by
  induction ps with
  | nil =>
    intro fuel rest _ _
    rw [show renderPairs [] ++ rbrace :: rest = rbrace :: rest by simp [renderPairs]]
    rw [parsePairsAux.eq_def]
    simp
  | cons p ps ih =>
    intro fuel rest hlen hwf
    obtain ⟨k, v⟩ := p
    have hp := hwf (k, v) (List.mem_cons_self _ _)
    obtain ⟨f, rfl⟩ : ∃ f, fuel = f + 1 := by
      cases fuel with
      | zero => simp at hlen
      | succ f => exact ⟨f, rfl⟩
    cases ps with
    | nil =>
      have hshape : renderPairs [(k, v)] ++ rbrace :: rest
          = renderPair (k, v) ++ rbrace :: rest := by
        simp [renderPairs]
      rw [hshape, parsePairsAux,
        if_neg (renderPair_append_head_ne_rbrace (k, v) _ hp.2),
        parseKV_renderPair k v _ hp.1]
      have hcomma : (rbrace = ',') = False := by simp [rbrace]
      simp [hcomma]
    | cons q qs =>
      have hshape : renderPairs ((k, v) :: q :: qs) ++ rbrace :: rest
          = renderPair (k, v) ++ ',' :: (renderPairs (q :: qs) ++ rbrace :: rest) := by
        simp [renderPairs]
      rw [hshape, parsePairsAux,
        if_neg (renderPair_append_head_ne_rbrace (k, v) _ hp.2),
        parseKV_renderPair k v _ hp.1]
      have hrec := ih f rest (by simp only [List.length_cons] at hlen ⊢; omega)
        (fun x hx => hwf x (List.mem_cons_of_mem _ hx))
      simp [hrec]

theorem parseLine_renderLine (t : ExpoTriple) (h : wfTriple t) :
    parseLine (renderLine t) = some t := by
  obtain ⟨name, ps, q⟩ := t
  obtain ⟨hne, hhd, hbr, hnl, hps⟩ := h
  have hnb : ∀ x ∈ name.data, (fun c => decide (c ≠ lbrace)) x = true := by
    intro x hx
    simp only [decide_eq_true_iff]
    intro heq
    exact hbr (heq ▸ hx)
  have hbrc : (fun c => decide (c ≠ lbrace)) lbrace = false := by
    simp
  simp only [renderLine, parseLine]
  rw [dropWhile_append_cons _ name.data lbrace _ hnb hbrc,
    takeWhile_append_cons _ name.data lbrace _ hnb hbrc]
  have hlen : ps.length ≤ (renderPairs ps ++ rbrace :: ' ' :: ratChars q).length := by
    have := renderPairs_length ps
    simp only [List.length_append, List.length_cons]
    omega
  have hpairs := parsePairsAux_renderPairs ps _ (' ' :: ratChars q) hlen
    (fun p hp => ⟨(hps p hp).1, (hps p hp).2.1⟩)
  simp only [List.length_append, List.length_cons] at hpairs
  simp [hpairs, charsToRat_ratChars]

theorem parseLines_map_renderLine (ts : List ExpoTriple) (h : ∀ t ∈ ts, wfTriple t) :
    parseLines (ts.map renderLine) = some ts := by
  induction ts with
  | nil => rfl
  | cons t ts ih =>
    simp only [List.map_cons, parseLines,
      parseLine_renderLine t (h t (List.mem_cons_self _ _)),
      ih (fun x hx => h x (List.mem_cons_of_mem _ hx))]

/-! ## Round-trip lemmas: line splitting -/

theorem splitOnChar_ne_nil (c : Char) (l : List Char) : splitOnChar c l ≠ [] := by
  induction l with
  | nil => simp [splitOnChar]
  | cons x xs ih =>
    simp only [splitOnChar]
    cases hs : splitOnChar c xs with
    | nil => exact absurd hs ih
    | cons r rs =>
      by_cases hx : x = c <;> simp [hx]

theorem splitOnChar_no_sep (c : Char) (l : List Char) (h : c ∉ l) :
    splitOnChar c l = [l] := by
  induction l with
  | nil => rfl
  | cons x xs ih =>
    have hx : ¬ (x = c) := fun heq => by subst heq; exact h (List.mem_cons_self _ _)
    have hxs : c ∉ xs := fun hm => h (List.mem_cons_of_mem _ hm)
    simp only [splitOnChar, ih hxs]
    simp [hx]

theorem splitOnChar_append (c : Char) (l t : List Char) (h : c ∉ l) :
    splitOnChar c (l ++ c :: t) = l :: splitOnChar c t := by
  induction l with
  | nil =>
    simp only [List.nil_append, splitOnChar]
    cases hs : splitOnChar c t with
    | nil => exact absurd hs (splitOnChar_ne_nil c t)
    | cons r rs => simp [hs]
  | cons x xs ih =>
    have hx : ¬ (x = c) := fun heq => by subst heq; exact h (List.mem_cons_self _ _)
    have hxs : c ∉ xs := fun hm => h (List.mem_cons_of_mem _ hm)
    simp only [List.cons_append, splitOnChar, List.append_eq]
    rw [ih hxs]
    simp [hx]

theorem splitOnChar_joinWith (c : Char) (ls : List (List Char)) (hne : ls ≠ [])
    (h : ∀ l ∈ ls, c ∉ l) : splitOnChar c (joinWith c ls) = ls := by
  induction ls with
  | nil => exact absurd rfl hne
  | cons l ls ih =>
    cases ls with
    | nil =>
      rw [show joinWith c [l] = l from rfl]
      exact splitOnChar_no_sep c l (h l (List.mem_cons_self _ _))
    | cons m ms =>
      rw [show joinWith c (l :: m :: ms) = l ++ c :: joinWith c (m :: ms) from rfl]
      rw [splitOnChar_append c l _ (h l (List.mem_cons_self _ _))]
      rw [ih (by simp) (fun x hx => h x (List.mem_cons_of_mem _ hx))]

/-! ## Round-trip lemmas: line classification and newline-freeness -/

theorem isDataLine_helpLine (f : MetricFamily) : isDataLine (helpLine f) = false := rfl

theorem isDataLine_typeLine (f : MetricFamily) : isDataLine (typeLine f) = false := rfl

theorem isDataLine_renderLine (t : ExpoTriple) (h : wfTriple t) :
    isDataLine (renderLine t) = true := by
  obtain ⟨name, ps, q⟩ := t
  obtain ⟨hne, hhd, _, _, _⟩ := h
  cases hn : name.data with
  | nil => exact absurd hn hne
  | cons c cs =>
    have hc : ¬ (c = '#') := by
      rw [hn] at hhd
      simp only [List.head?_cons, ne_eq, Option.some.injEq] at hhd
      exact hhd
    simp [renderLine, hn, isDataLine, hc]

theorem mem_escapeChars (c : Char) (l : List Char) (h : c ∈ escapeChars l) :
    c ∈ l ∨ c = '\\' := by
  induction l with
  | nil => simp [escapeChars] at h
  | cons x xs ih =>
    by_cases hx : x = '\"' ∨ x = '\\'
    · have he : escapeChars (x :: xs) = '\\' :: x :: escapeChars xs := by
        rcases hx with h' | h' <;> simp [escapeChars, h']
      rw [he] at h
      rcases List.mem_cons.mp h with h1 | h1
      · exact Or.inr h1
      · rcases List.mem_cons.mp h1 with h2 | h2
        · exact Or.inl (h2 ▸ List.mem_cons_self _ _)
        · rcases ih h2 with h3 | h3
          · exact Or.inl (List.mem_cons_of_mem _ h3)
          · exact Or.inr h3
    · push_neg at hx
      have he : escapeChars (x :: xs) = x :: escapeChars xs := by
        simp [escapeChars, hx.1, hx.2]
      rw [he] at h
      rcases List.mem_cons.mp h with h1 | h1
      · exact Or.inl (h1 ▸ List.mem_cons_self _ _)
      · rcases ih h1 with h3 | h3
        · exact Or.inl (List.mem_cons_of_mem _ h3)
        · exact Or.inr h3

theorem nl_not_mem_ratChars (q : ℚ) : '\n' ∉ ratChars q := by
  intro h
  simp only [ratChars, List.append_assoc, List.mem_append] at h
  rcases h with h | h | h
  · by_cases hneg : q.num < 0
    · rw [if_pos hneg] at h
      exact absurd (List.mem_singleton.mp h) (by decide)
    · rw [if_neg hneg] at h
      simp at h
  · exact (isDigit_ne_special _ (natChars_digits _ _ h)).2.2.1 rfl
  · by_cases hden : q.den = 1
    · rw [if_pos hden] at h
      simp at h
    · rw [if_neg hden] at h
      rcases List.mem_cons.mp h with h1 | h1
      · exact absurd h1 (by decide)
      · exact (isDigit_ne_special _ (natChars_digits _ _ h1)).2.2.1 rfl

theorem nl_not_mem_renderPair (p : String × String) (hk : '\n' ∉ p.1.data)
    (hv : '\n' ∉ p.2.data) : '\n' ∉ renderPair p := by
  intro h
  simp only [renderPair, List.mem_append, List.mem_cons, List.mem_singleton] at h
  rcases h with h | h | h | h | h
  · exact hk h
  · exact absurd h (by decide)
  · exact absurd h (by decide)
  · rcases mem_escapeChars _ _ h with h' | h'
    · exact hv h'
    · exact absurd h' (by decide)
  · exact absurd h (by decide)

theorem nl_not_mem_renderPairs (ps : List (String × String))
    (h : ∀ p ∈ ps, '\n' ∉ p.1.data ∧ '\n' ∉ p.2.data) : '\n' ∉ renderPairs ps := by
  induction ps with
  | nil => simp [renderPairs]
  | cons p ps ih =>
    cases ps with
    | nil =>
      simp only [renderPairs]
      exact nl_not_mem_renderPair p (h p (List.mem_cons_self _ _)).1
        (h p (List.mem_cons_self _ _)).2
    | cons q qs =>
      simp only [renderPairs]
      intro hm
      rcases List.mem_append.mp hm with h1 | h1
      · exact nl_not_mem_renderPair p (h p (List.mem_cons_self _ _)).1
          (h p (List.mem_cons_self _ _)).2 h1
      · rcases List.mem_cons.mp h1 with h2 | h2
        · exact absurd h2 (by decide)
        · exact ih (fun x hx => h x (List.mem_cons_of_mem _ hx)) h2

theorem nl_not_mem_renderLine (t : ExpoTriple) (h : wfTriple t) :
    '\n' ∉ renderLine t := by
  obtain ⟨name, ps, q⟩ := t
  obtain ⟨_, _, _, hnl, hps⟩ := h
  intro hm
  simp only [renderLine, List.mem_append, List.mem_cons] at hm
  rcases hm with h1 | h1 | h1 | h1 | h1 | h1
  · exact hnl h1
  · exact absurd h1 (by decide)
  · exact nl_not_mem_renderPairs ps
      (fun p hp => ⟨(hps p hp).2.2.1, (hps p hp).2.2.2⟩) h1
  · exact absurd h1 (by decide)
  · exact absurd h1 (by decide)
  · exact nl_not_mem_ratChars q h1

theorem renderLine_ne_nil (t : ExpoTriple) : renderLine t ≠ [] := by
  simp [renderLine]

theorem nl_not_mem_helpLine (f : MetricFamily) (hn : '\n' ∉ f.descriptor.name.data)
    (hh : '\n' ∉ f.descriptor.help.data) : '\n' ∉ helpLine f := by
  intro hm
  simp only [helpLine] at hm
  rcases List.mem_cons.mp hm with h | hm1
  · exact absurd h (by decide)
  rcases List.mem_cons.mp hm1 with h | hm2
  · exact absurd h (by decide)
  rcases List.mem_append.mp hm2 with hm3 | hm4
  · rcases List.mem_append.mp hm3 with h | h
    · exact absurd h (by decide)
    · exact hn h
  · rcases List.mem_cons.mp hm4 with h | h
    · exact absurd h (by decide)
    · exact hh h

theorem nl_not_mem_typeLine (f : MetricFamily) (hn : '\n' ∉ f.descriptor.name.data) :
    '\n' ∉ typeLine f := by
  intro hm
  simp only [typeLine] at hm
  rcases List.mem_cons.mp hm with h | hm1
  · exact absurd h (by decide)
  rcases List.mem_cons.mp hm1 with h | hm2
  · exact absurd h (by decide)
  rcases List.mem_append.mp hm2 with hm3 | hm4
  · rcases List.mem_append.mp hm3 with h | h
    · exact absurd h (by decide)
    · exact hn h
  · rcases List.mem_cons.mp hm4 with h | h
    · exact absurd h (by decide)
    · cases hk : f.descriptor.kind <;> rw [hk] at h <;> exact absurd h (by decide)

/-! ## Round-trip assembly -/

theorem filter_familyLines (f : MetricFamily)
    (hwf : ∀ t ∈ familyTriples f, wfTriple t) :
    (familyLines f).filter isDataLine = (familyTriples f).map renderLine := by
  simp only [familyLines, List.filter_cons, isDataLine_helpLine, isDataLine_typeLine,
    Bool.false_eq_true, if_false]
  rw [List.filter_eq_self.mpr]
  intro a ha
  obtain ⟨t, ht, rfl⟩ := List.mem_map.mp ha
  exact isDataLine_renderLine t (hwf t ht)

theorem filter_flatMap_familyLines (fams : List MetricFamily)
    (hwf : ∀ f ∈ fams, ∀ t ∈ familyTriples f, wfTriple t) :
    (fams.flatMap familyLines).filter isDataLine
      = (fams.flatMap familyTriples).map renderLine := by
  induction fams with
  | nil => rfl
  | cons f fs ih =>
    simp only [List.flatMap_cons, List.filter_append, List.map_append]
    rw [filter_familyLines f (hwf f (List.mem_cons_self _ _)),
      ih (fun g hg => hwf g (List.mem_cons_of_mem _ hg))]

theorem flatMap_familyLines_facts (fams : List MetricFamily)
    (hfam : ∀ f ∈ fams, '\n' ∉ f.descriptor.name.data ∧ '\n' ∉ f.descriptor.help.data)
    (hwf : ∀ f ∈ fams, ∀ t ∈ familyTriples f, wfTriple t) :
    ∀ l ∈ fams.flatMap familyLines, '\n' ∉ l := by
  intro l hl
  obtain ⟨f, hf, hlf⟩ := List.mem_flatMap.mp hl
  simp only [familyLines, List.mem_cons] at hlf
  rcases hlf with rfl | rfl | hlf
  · exact nl_not_mem_helpLine f (hfam f hf).1 (hfam f hf).2
  · exact nl_not_mem_typeLine f (hfam f hf).1
  · obtain ⟨t, ht, rfl⟩ := List.mem_map.mp hlf
    exact nl_not_mem_renderLine t (hwf f hf t ht)

/-- C7 (amended): for a well-formed registry, parsing the rendered
exposition text reconstructs exactly the registry's data triples. -/
theorem c7_roundtrip_wellformed (r : Registry) (h : wfRegistry r) :
    parseExposition (renderText r) = some (registryTriples r) := by
  obtain ⟨hfam, htri⟩ := h
  have htrif : ∀ f ∈ r.families, ∀ t ∈ familyTriples f, wfTriple t := by
    intro f hf t ht
    exact htri t (List.mem_flatMap.mpr ⟨f, hf, ht⟩)
  show parseLines (((splitOnChar '\n' (renderChars r)).filter isDataLine)) = _
  cases hfs : r.families with
  | nil =>
    have hrc : renderChars r = [] := by
      simp [renderChars, hfs, joinWith]
    rw [hrc]
    simp only [registryTriples, hfs]
    rfl
  | cons f fs =>
    have hLne : r.families.flatMap familyLines ≠ [] := by
      rw [hfs]
      simp [List.flatMap_cons, familyLines]
    have hnl := flatMap_familyLines_facts r.families hfam htrif
    have hsplit : splitOnChar '\n' (renderChars r) = r.families.flatMap familyLines := by
      rw [renderChars]
      exact splitOnChar_joinWith '\n' _ hLne hnl
    rw [hsplit, filter_flatMap_familyLines r.families htrif]
    exact parseLines_map_renderLine _ htri

set_option maxRecDepth 10000 in
/-- Witness for C7's amended theorem at a concrete two-family registry. -/
theorem c7_roundtrip_witness :
    parseExposition (renderText c7Reg) = some (registryTriples c7Reg) :=
  c7_roundtrip_wellformed c7Reg (by decide)

set_option maxRecDepth 10000 in
/-- C7 as stated is false: for the registry `c7BadReg` the rendered text
does not parse back to the registry's triples (the parse fails). -/
theorem c7_roundtrip_counterexample :
    parseExposition (renderText c7BadReg) ≠ some (registryTriples c7BadReg) := by
  decide
